import Mathlib

/-!
Shallow embedding of `src/core/auth.ts` (password hashing and JWT handling
built on the Web Crypto API, `btoa`/`atob`, `JSON.stringify`/`JSON.parse`).

Modelling conventions:
* JS binary data (`Uint8Array`, `ArrayBuffer`) is `List Nat`, each entry a
  byte value `< 256`.
* JS exceptions are `Except JsError`; functions that cannot throw are total.
* The cryptographic primitives (`crypto.subtle.deriveBits` for PBKDF2 and
  `crypto.subtle.sign`/`verify` for HMAC-SHA256) are not part of the
  repository; they enter as abstract function parameters
  (`deriveKey : String → List Nat → List Nat`,
  `hmac : String → String → List Nat`).  `crypto.subtle.verify` for HMAC
  recomputes the tag and compares, which is how it is modelled.
* The ambient clock (`Date.now()`) is an explicit `now` parameter.
* `crypto.getRandomValues` (the random salt) is an explicit `salt` parameter.
-/

/-- JS exception values that the modelled code can raise. -/
inductive JsError where
  /-- `InvalidCharacterError` raised by `atob`/`btoa`. -/
  | invalidCharacter
  /-- `TypeError` raised by a property access on `null`. -/
  | typeError
  deriving DecidableEq, Repr

-- ── base64 (`btoa` / `atob`) ─────────────────────────────────────────

/-- The base64 digit for a sextet value (`A`–`Z`, `a`–`z`, `0`–`9`, `+`, `/`). -/
def sextetToChar (n : Nat) : Char :=
  if n < 26 then Char.ofNat (65 + n)
  else if n < 52 then Char.ofNat (97 + (n - 26))
  else if n < 62 then Char.ofNat (48 + (n - 52))
  else if n = 62 then '+'
  else '/'

/-- The sextet value of a base64 digit, `none` for characters outside the
base64 alphabet. -/
def charToSextet (c : Char) : Option Nat :=
  let n := c.toNat
  if 65 ≤ n ∧ n ≤ 90 then some (n - 65)
  else if 97 ≤ n ∧ n ≤ 122 then some (n - 97 + 26)
  else if 48 ≤ n ∧ n ≤ 57 then some (n - 48 + 52)
  else if c = '+' then some 62
  else if c = '/' then some 63
  else none

/-- Standard base64 encoding of a byte list, with `=` padding, as produced by
`btoa` on a binary string. -/
def encodeChunks : List Nat → List Char
  | a :: b :: c :: rest =>
      let w := a % 256 * 65536 + b % 256 * 256 + c % 256
      sextetToChar (w / 262144 % 64) :: sextetToChar (w / 4096 % 64) ::
        sextetToChar (w / 64 % 64) :: sextetToChar (w % 64) :: encodeChunks rest
  | [a, b] =>
      let w := a % 256 * 1024 + b % 256 * 4
      [sextetToChar (w / 4096 % 64), sextetToChar (w / 64 % 64),
        sextetToChar (w % 64), '=']
  | [a] =>
      let w := a % 256 * 16
      [sextetToChar (w / 64 % 64), sextetToChar (w % 64), '=', '=']
  | [] => []

/-- Byte list recovered from a list of sextet values; a single leftover sextet
is an error (a base64 chunk of length `1 mod 4` carries no whole byte). -/
def decodeSextets : List Nat → Option (List Nat)
  | s1 :: s2 :: s3 :: s4 :: rest =>
      let w := ((s1 * 64 + s2) * 64 + s3) * 64 + s4
      (decodeSextets rest).map
        (fun bs => w / 65536 % 256 :: w / 256 % 256 :: w % 256 :: bs)
  | [s1, s2, s3] =>
      let w := (s1 * 64 + s2) * 64 + s3
      some [w / 1024 % 256, w / 4 % 256]
  | [s1, s2] => some [(s1 * 64 + s2) / 16 % 256]
  | [_] => none
  | [] => some []

/-- ASCII whitespace, stripped by the forgiving-base64 decode of `atob`. -/
def isB64Ws (c : Char) : Bool :=
  c.toNat = 9 ∨ c.toNat = 10 ∨ c.toNat = 12 ∨ c.toNat = 13 ∨ c.toNat = 32

/-- Strip up to two trailing `=` characters (forgiving-base64 step). -/
def stripPad (cs : List Char) : List Char :=
  let cs1 := if cs.getLast? = some '=' then cs.dropLast else cs
  if cs1.getLast? = some '=' then cs1.dropLast else cs1

/-- `Option.mapM charToSextet` unrolled as a plain recursion. -/
def sextetsOfChars : List Char → Option (List Nat)
  | [] => some []
  | c :: cs => do
      let s ← charToSextet c
      let rest ← sextetsOfChars cs
      pure (s :: rest)

/-- Decode step of forgiving-base64 after whitespace and padding removal:
reject length `1 mod 4`, map characters to sextets, regroup into bytes. -/
def atobCore (cs : List Char) : Except JsError (List Nat) :=
  if cs.length % 4 = 1 then .error .invalidCharacter
  else
    match sextetsOfChars cs with
    | none => .error .invalidCharacter
    | some sx =>
      match decodeSextets sx with
      | none => .error .invalidCharacter
      | some bs => .ok bs

/-- `atob` on a character list: WHATWG forgiving-base64 decode to a byte
list, raising `InvalidCharacterError` on malformed input. -/
def atobChars (cs : List Char) : Except JsError (List Nat) :=
  let cs := cs.filter (fun c => ¬ isB64Ws c)
  let cs := if cs.length % 4 = 0 then stripPad cs else cs
  atobCore cs

/-- `btoa` on a character list: fails on any char code above 255, otherwise
base64-encodes the char codes. -/
def btoaChars (cs : List Char) : Except JsError (List Char) :=
  if cs.all (fun c => c.toNat ≤ 255) then .ok (encodeChunks (cs.map Char.toNat))
  else .error .invalidCharacter

-- ── base64url helpers (`base64UrlEncode` / `base64UrlDecode`) ────────

/-- `+`→`-`, `/`→`_` (the `.replace` calls of `base64UrlEncode`). -/
def urlChar (c : Char) : Char :=
  if c = '+' then '-' else if c = '/' then '_' else c

/-- `-`→`+`, `_`→`/` (the `.replace` calls of `base64UrlDecode`). -/
def unUrlChar (c : Char) : Char :=
  if c = '-' then '+' else if c = '_' then '/' else c

/-- `.replace(/=+$/, "")`: drop every trailing `=`. -/
def dropTrailingEq (cs : List Char) : List Char :=
  (cs.reverse.dropWhile (fun c => c = '=')).reverse

/-- `base64UrlEncode(data)`: `btoa` then URL-safe substitution and padding
removal.  Throws iff `btoa` throws (char code above 255). -/
def base64UrlEncodeChars (cs : List Char) : Except JsError (List Char) := do
  let b ← btoaChars cs
  pure (dropTrailingEq (b.map urlChar))

/-- `base64UrlDecode(data)` followed by reading the binary string's char
codes: undo the URL-safe substitution, then `atob`. -/
def base64UrlDecodeChars (cs : List Char) : Except JsError (List Nat) :=
  atobChars (cs.map unUrlChar)

-- ── `String.prototype.split(".")` ────────────────────────────────────

/-- JS `str.split(".")` on the character list: `[""]` for the empty string,
empty segments preserved. -/
def splitOnDot : List Char → List (List Char)
  | [] => [[]]
  | c :: rest =>
      if c = '.' then [] :: splitOnDot rest
      else
        match splitOnDot rest with
        | [] => [[c]]
        | p :: ps => (c :: p) :: ps

-- ── Password hashing (`hashPassword` / `verifyPassword`) ─────────────

/-- `arrayBufferToBase64`: base64 of the bytes (its `btoa` cannot throw
because `String.fromCharCode` of a byte is always Latin-1). -/
def arrayBufferToBase64 (bs : List Nat) : List Char :=
  encodeChunks bs

/-- `hashPassword` with the random salt and the PBKDF2 derivation
(`deriveKey`, a Web Crypto call outside the repository) as explicit
parameters.  Returns `base64(salt) ++ "." ++ base64(derivedKey)`. -/
def hashPassword (deriveKey : String → List Nat → List Nat)
    (password : String) (salt : List Nat) : List Char :=
  arrayBufferToBase64 salt ++ '.' :: arrayBufferToBase64 (deriveKey password salt)

/-- The constant-time comparison loop of `verifyPassword`
(`result |= expected[i] ^ actual[i]` over every index), instrumented with an
iteration count: returns `(result, iterations)`. -/
def ctLoop : List Nat → List Nat → Nat × Nat
  | x :: xs, y :: ys =>
      let r := ctLoop xs ys
      (r.1 ||| Nat.xor x y, r.2 + 1)
  | _, _ => (0, 0)

/-- `verifyPassword(password, storedHash)`.  Mirrors the source exactly:
split on `.`, falsy-check the first two parts, `atob`-decode both
(this can throw: the source has no try/catch here), re-derive, compare
lengths, then the constant-time loop. -/
def verifyPassword (deriveKey : String → List Nat → List Nat)
    (password : String) (storedHash : List Char) : Except JsError Bool :=
  let parts := splitOnDot storedHash
  let saltB64 := parts.getD 0 []
  let hashB64 := parts.getD 1 []
  if saltB64 = [] ∨ hashB64 = [] then .ok false
  else do
    let salt ← atobChars saltB64
    let expected ← atobChars hashB64
    let actual := deriveKey password salt
    if expected.length ≠ actual.length then pure false
    else pure ((ctLoop expected actual).1 = 0)

-- ── JSON values (`JSON.parse` / `JSON.stringify`) ────────────────────

/-- JSON values as produced by `JSON.parse`.  Numbers are modelled in their
integer fragment (the only numbers this code produces or inspects); object
fields keep source order, duplicates included. -/
inductive Json where
  | null
  | bool (b : Bool)
  | num (n : Int)
  | str (s : List Char)
  | arr (elems : List Json)
  | obj (fields : List (List Char × Json))

/-- Decimal digit character. -/
def digitChar (n : Nat) : Char := Char.ofNat (48 + n % 10)

/-- Little-endian decimal digits, fuelled so that it evaluates by kernel
reduction; the fuel never runs out when it starts at `n`. -/
def natDigitsRevAux : Nat → Nat → List Nat
  | 0, n => [n]
  | fuel + 1, n => if n < 10 then [n] else n % 10 :: natDigitsRevAux fuel (n / 10)

/-- Little-endian decimal digits of a natural number. -/
def natDigitsRev (n : Nat) : List Nat :=
  natDigitsRevAux n n

/-- Decimal representation of a natural number, most significant digit
first. -/
def natChars (n : Nat) : List Char :=
  (natDigitsRev n).reverse.map digitChar

/-- Decimal representation of an integer, as printed by `JSON.stringify` on
an integral JS number. -/
def intChars (i : Int) : List Char :=
  if i < 0 then '-' :: natChars i.natAbs else natChars i.natAbs

/-- Uppercase-free hex digit (JSON `\u00XX` escapes use lowercase here,
which `JSON.parse` accepts case-insensitively). -/
def hexChar (n : Nat) : Char :=
  if n % 16 < 10 then Char.ofNat (48 + n % 16) else Char.ofNat (97 + (n % 16 - 10))

/-- The escape `JSON.stringify` applies to one string character:
`"` and `\` get a backslash, the named control escapes are used where they
exist, other control characters become `\u00XX`, everything else is kept. -/
def escapeChar (c : Char) : List Char :=
  if c = '"' then ['\\', '"']
  else if c = '\\' then ['\\', '\\']
  else if c.toNat = 8 then ['\\', 'b']
  else if c.toNat = 9 then ['\\', 't']
  else if c.toNat = 10 then ['\\', 'n']
  else if c.toNat = 12 then ['\\', 'f']
  else if c.toNat = 13 then ['\\', 'r']
  else if c.toNat < 32 then ['\\', 'u', '0', '0', hexChar (c.toNat / 16), hexChar (c.toNat % 16)]
  else [c]

/-- `JSON.stringify` of a string value, quotes included. -/
def stringifyStr (s : List Char) : List Char :=
  '"' :: (s.flatMap escapeChar) ++ ['"']

/-- `JSON.stringify({alg: "HS256", typ: "JWT"})` — the fixed JWT header. -/
def headerJsonChars : List Char :=
  "\x7b\"alg\":\"HS256\",\"typ\":\"JWT\"\x7d".data

/-- `JSON.stringify({sub, email, iat, exp})` as built by `createToken`
(insertion order `sub`, `email`, `iat`, `exp`; integral numbers). -/
def payloadJsonChars (sub : Int) (email : List Char) (iat exp : Int) : List Char :=
  "\x7b\"sub\":".data ++ intChars sub ++
  ",\"email\":".data ++ stringifyStr email ++
  ",\"iat\":".data ++ intChars iat ++
  ",\"exp\":".data ++ intChars exp ++ ['\x7d']

-- ── `JSON.parse` model ───────────────────────────────────────────────

/-- JSON whitespace. -/
def isJsonWs (c : Char) : Bool :=
  c.toNat = 9 ∨ c.toNat = 10 ∨ c.toNat = 13 ∨ c.toNat = 32

/-- Skip JSON whitespace. -/
def skipWs (cs : List Char) : List Char :=
  cs.dropWhile isJsonWs

/-- Value of a hex digit character. -/
def hexVal (c : Char) : Option Nat :=
  let n := c.toNat
  if 48 ≤ n ∧ n ≤ 57 then some (n - 48)
  else if 97 ≤ n ∧ n ≤ 102 then some (n - 97 + 10)
  else if 65 ≤ n ∧ n ≤ 70 then some (n - 65 + 10)
  else none

/-- Decimal digit predicate. -/
def isDigit (c : Char) : Bool :=
  48 ≤ c.toNat ∧ c.toNat ≤ 57

/-- Fold a digit-character list into a natural number. -/
def digitsVal (ds : List Char) : Nat :=
  ds.foldl (fun acc d => acc * 10 + (d.toNat - 48)) 0

/-- Body of a JSON string literal after the opening quote: consume up to the
closing quote, decoding escapes; raw control characters are rejected as
`JSON.parse` rejects them. -/
def parseStringBody : List Char → Option (List Char × List Char)
  | [] => none
  | '"' :: rest => some ([], rest)
  | '\\' :: 'u' :: h1 :: h2 :: h3 :: h4 :: rest' => do
      let v1 ← hexVal h1
      let v2 ← hexVal h2
      let v3 ← hexVal h3
      let v4 ← hexVal h4
      -- the `% 65536` is a no-op (hex digits are below 16) that keeps the
      -- code-point bound syntactically evident
      let code := (((v1 * 16 + v2) * 16 + v3) * 16 + v4) % 65536
      -- lone surrogates are representable in JS strings but not in `Char`;
      -- they are outside this model
      if h : code < 55296 ∨ 57344 ≤ code then
        (parseStringBody rest').map
          (fun r => (Char.ofNatAux code (by
            unfold Nat.isValidChar
            omega) :: r.1, r.2))
      else none
  | '\\' :: e :: rest =>
      match e with
      | '"' => (parseStringBody rest).map (fun r => ('"' :: r.1, r.2))
      | '\\' => (parseStringBody rest).map (fun r => ('\\' :: r.1, r.2))
      | '/' => (parseStringBody rest).map (fun r => ('/' :: r.1, r.2))
      | 'b' => (parseStringBody rest).map (fun r => (Char.ofNat 8 :: r.1, r.2))
      | 'f' => (parseStringBody rest).map (fun r => (Char.ofNat 12 :: r.1, r.2))
      | 'n' => (parseStringBody rest).map (fun r => ('\n' :: r.1, r.2))
      | 'r' => (parseStringBody rest).map (fun r => (Char.ofNat 13 :: r.1, r.2))
      | 't' => (parseStringBody rest).map (fun r => ('\t' :: r.1, r.2))
      | _ => none
  | c :: rest =>
      if c.toNat < 32 then none
      else (parseStringBody rest).map (fun r => (c :: r.1, r.2))

/-- A JSON number in its integer fragment: optional minus, digit run. -/
def parseIntNum (cs : List Char) : Option (Int × List Char) :=
  match cs with
  | '-' :: rest =>
      let ds := rest.takeWhile isDigit
      if ds = [] then none
      else some (-(digitsVal ds : Int), rest.dropWhile isDigit)
  | _ =>
      let ds := cs.takeWhile isDigit
      if ds = [] then none
      else some ((digitsVal ds : Int), cs.dropWhile isDigit)

mutual

/-- Parse one JSON value (fuel decreases at each nesting step). -/
def parseValue : Nat → List Char → Option (Json × List Char)
  | 0, _ => none
  | fuel + 1, cs =>
      match skipWs cs with
      | '"' :: rest => (parseStringBody rest).map (fun r => (.str r.1, r.2))
      | 'n' :: 'u' :: 'l' :: 'l' :: rest => some (.null, rest)
      | 't' :: 'r' :: 'u' :: 'e' :: rest => some (.bool true, rest)
      | 'f' :: 'a' :: 'l' :: 's' :: 'e' :: rest => some (.bool false, rest)
      | '\x7b' :: rest =>
          (match skipWs rest with
           | '\x7d' :: rest' => some (.obj [], rest')
           | _ => (parseFields fuel rest).map (fun r => (.obj r.1, r.2)))
      | '[' :: rest =>
          (match skipWs rest with
           | ']' :: rest' => some (.arr [], rest')
           | _ => (parseElems fuel rest).map (fun r => (.arr r.1, r.2)))
      | other => (parseIntNum other).map (fun r => (.num r.1, r.2))

/-- Parse a non-empty `"key": value` list and the closing brace. -/
def parseFields : Nat → List Char → Option (List (List Char × Json) × List Char)
  | 0, _ => none
  | fuel + 1, cs => do
      let (key, afterKey) ←
        match skipWs cs with
        | '"' :: rest => parseStringBody rest
        | _ => none
      let afterColon ←
        match skipWs afterKey with
        | ':' :: rest => some rest
        | _ => none
      let (v, afterVal) ← parseValue fuel afterColon
      match skipWs afterVal with
      | ',' :: rest => (parseFields fuel rest).map (fun r => ((key, v) :: r.1, r.2))
      | '\x7d' :: rest => some ([(key, v)], rest)
      | _ => none

/-- Parse a non-empty value list and the closing bracket. -/
def parseElems : Nat → List Char → Option (List Json × List Char)
  | 0, _ => none
  | fuel + 1, cs => do
      let (v, afterVal) ← parseValue fuel cs
      match skipWs afterVal with
      | ',' :: rest => (parseElems fuel rest).map (fun r => (v :: r.1, r.2))
      | ']' :: rest => some ([v], rest)
      | _ => none

end

/-- `JSON.parse`: one value, then only trailing whitespace.  The fuel
`cs.length + 1` never runs out: every nesting step consumes at least one
character. -/
def jsonParse (cs : List Char) : Option Json :=
  match parseValue (cs.length + 1) cs with
  | some (v, rest) => if skipWs rest = [] then some v else none
  | none => none

/-- The parsed form of the payload object `createToken` serializes. -/
def payloadObj (sub : Int) (email : List Char) (iat exp : Int) : Json :=
  .obj [("sub".data, .num sub), ("email".data, .str email),
        ("iat".data, .num iat), ("exp".data, .num exp)]

-- ── JS property access and numeric comparison ────────────────────────

/-- Last-binding lookup in a parsed field list (`JSON.parse` keeps the last
duplicate key). -/
def lookupLast (fields : List (List Char × Json)) (key : List Char) : Option Json :=
  fields.foldl (fun acc f => if f.1 = key then some f.2 else acc) none

/-- JS `value.key`: a `TypeError` on `null`, the field (or `undefined`,
modelled `none`) on an object, `undefined` on any other primitive/array. -/
def jsGetField (j : Json) (key : List Char) : Except JsError (Option Json) :=
  match j with
  | .null => .error .typeError
  | .obj fields => .ok (lookupLast fields key)
  | _ => .ok none

/-- JS `Number(string)` in its integer fragment: trimmed-empty is `0`,
optional sign and digit run is that integer, anything else is `NaN`
(`none`; floats, hex and `Infinity` literals are outside the model). -/
def jsStringToNumber (s : List Char) : Option Int :=
  let t := (s.dropWhile isJsonWs).reverse.dropWhile isJsonWs
  let t := t.reverse
  if t = [] then some 0
  else
    match t with
    | '-' :: ds => if ds ≠ [] ∧ ds.all isDigit then some (-(digitsVal ds : Int)) else none
    | '+' :: ds => if ds ≠ [] ∧ ds.all isDigit then some ((digitsVal ds : Int)) else none
    | ds => if ds.all isDigit then some ((digitsVal ds : Int)) else none

/-- JS `x < now` for the possibly-`undefined` value of `decoded.exp`:
`undefined` compares `false`, numbers compare numerically, `null`/booleans
coerce to `0`/`1`, strings go through `Number(...)` with `NaN` comparing
`false`, empty/singleton arrays coerce through their string form, and other
objects/arrays coerce to `NaN`. -/
def jsLtNum (x : Option Json) (now : Int) : Bool :=
  match x with
  | none => false
  | some (.num m) => m < now
  | some .null => 0 < now
  | some (.bool b) => (if b then (1 : Int) else 0) < now
  | some (.str s) =>
      match jsStringToNumber s with
      | some m => m < now
      | none => false
  | some (.arr []) => 0 < now
  | some (.arr [.num m]) => m < now
  | some (.arr _) => false
  | some (.obj _) => false

-- ── JWT (`createToken` / `verifyToken`) ──────────────────────────────

/-- `JWT_EXPIRATION_SECONDS` (24 hours). -/
def JWT_EXPIRATION_SECONDS : Int := 86400

/-- The HMAC-SHA256 primitive (`crypto.subtle.sign` with the key imported
from `secret`), abstracted: secret and message to tag bytes. -/
abbrev Hmac := String → String → List Nat

/-- `Char` of a byte value (total; bytes are below the surrogate range). -/
def charOfByte (b : Nat) : Char := Char.ofNat (b % 256)

/-- `createToken(userId, email, secret)` with the clock and the HMAC
primitive explicit.  Builds the header and payload JSON, base64url-encodes
them, signs `header.payload`, and appends the base64url signature.  The
`btoa` inside `base64UrlEncode` throws when the JSON contains a char code
above 255 (possible via `email`).  The `% 256` on the tag is the
`Uint8Array` view of the signature buffer. -/
def createToken (hmac : Hmac) (userId : Int) (email : List Char)
    (secret : String) (now : Int) : Except JsError (List Char) := do
  let header ← base64UrlEncodeChars headerJsonChars
  let payload ← base64UrlEncodeChars
    (payloadJsonChars userId email now (now + JWT_EXPIRATION_SECONDS))
  let signingInput := header ++ '.' :: payload
  let sigBytes := (hmac secret (String.mk signingInput)).map (fun b => b % 256)
  let sig ← base64UrlEncodeChars (sigBytes.map charOfByte)
  pure (signingInput ++ '.' :: sig)

/-- Body of the `try` block of `verifyToken` once the three segments are in
hand: base64url-decode the signature, verify it (HMAC verify recomputes the
tag and compares), decode and `JSON.parse` the payload, then reject when
`decoded.exp < now`.  Every exception inside the `try` yields `null`
(`none`); the header is used only inside the signing input. -/
def verifyTokenCore (hmac : Hmac) (header payload signature : List Char)
    (secret : String) (now : Int) : Option Json :=
  let signingInput := header ++ '.' :: payload
  match base64UrlDecodeChars signature with
  | .error _ => none
  | .ok signatureBytes =>
    if signatureBytes ≠ hmac secret (String.mk signingInput) then none
    else
      match base64UrlDecodeChars payload with
      | .error _ => none
      | .ok payloadBytes =>
        match jsonParse (payloadBytes.map charOfByte) with
        | none => none
        | some decoded =>
          match jsGetField decoded "exp".data with
          | .error _ => none
          | .ok expVal => if jsLtNum expVal now then none else some decoded

/-- `verifyToken(token, secret)` with the clock and the HMAC primitive
explicit.  Split on `.`, require exactly 3 parts, then run the `try` body
on the three segments. -/
def verifyToken (hmac : Hmac) (token : List Char) (secret : String)
    (now : Int) : Option Json :=
  let parts := splitOnDot token
  if parts.length ≠ 3 then none
  else verifyTokenCore hmac (parts.getD 0 []) (parts.getD 1 []) (parts.getD 2 [])
    secret now

-- ── Lemmas: base64 alphabet ──────────────────────────────────────────

/-- The sextet stream underlying `encodeChunks` (before the characters and
padding are attached). -/
def sextets : List Nat → List Nat
  | a :: b :: c :: rest =>
      let w := a % 256 * 65536 + b % 256 * 256 + c % 256
      w / 262144 % 64 :: w / 4096 % 64 :: w / 64 % 64 :: w % 64 :: sextets rest
  | [a, b] =>
      let w := a % 256 * 1024 + b % 256 * 4
      [w / 4096 % 64, w / 64 % 64, w % 64]
  | [a] =>
      let w := a % 256 * 16
      [w / 64 % 64, w % 64]
  | [] => []

/-- Number of `=` padding characters for a byte-list length. -/
def padLen (l : Nat) : Nat :=
  if l % 3 = 0 then 0 else if l % 3 = 1 then 2 else 1

theorem charToSextet_sextetToChar : ∀ n, n < 64 → charToSextet (sextetToChar n) = some n := by
  decide

theorem sextetToChar_ne_eq : ∀ n, n < 64 → sextetToChar n ≠ '=' := by decide

theorem sextetToChar_ne_dot : ∀ n, n < 64 → sextetToChar n ≠ '.' := by decide

theorem sextetToChar_not_ws : ∀ n, n < 64 → isB64Ws (sextetToChar n) = false := by decide

theorem unUrl_url_sextet : ∀ n, n < 64 → unUrlChar (urlChar (sextetToChar n)) = sextetToChar n := by
  decide

theorem url_sextet_ne_eq : ∀ n, n < 64 → urlChar (sextetToChar n) ≠ '=' := by decide

theorem url_sextet_ne_dot : ∀ n, n < 64 → urlChar (sextetToChar n) ≠ '.' := by decide

theorem sextets_lt64 (bs : List Nat) : ∀ v ∈ sextets bs, v < 64 := by
  induction bs using sextets.induct with
  | case1 a b c rest ih =>
      intro v hv
      simp only [sextets, List.mem_cons] at hv
      rcases hv with h | h | h | h | h
      · omega
      · omega
      · omega
      · omega
      · exact ih v h
  | case2 a b =>
      intro v hv
      simp only [sextets, List.mem_cons, List.not_mem_nil, or_false] at hv
      rcases hv with h | h | h <;> omega
  | case3 a =>
      intro v hv
      simp only [sextets, List.mem_cons, List.not_mem_nil, or_false] at hv
      rcases hv with h | h <;> omega
  | case4 => intro v hv; simp [sextets] at hv

theorem encodeChunks_eq_sextets (bs : List Nat) :
    encodeChunks bs = (sextets bs).map sextetToChar ++ List.replicate (padLen bs.length) '=' := by
  induction bs using sextets.induct with
  | case1 a b c rest ih =>
      simp only [encodeChunks, sextets, List.map_cons, List.cons_append, ih]
      have h3 : (a :: b :: c :: rest).length % 3 = rest.length % 3 := by
        simp only [List.length_cons]; omega
      simp only [padLen, h3]
  | case2 a b => simp [encodeChunks, sextets, padLen, List.replicate]
  | case3 a => simp [encodeChunks, sextets, padLen, List.replicate]
  | case4 => simp [encodeChunks, sextets, padLen]

theorem decodeSextets_sextets (bs : List Nat) (h : ∀ b ∈ bs, b < 256) :
    decodeSextets (sextets bs) = some bs := by
  induction bs using sextets.induct with
  | case1 a b c rest ih =>
      have ha : a < 256 := h a (by simp)
      have hb : b < 256 := h b (by simp)
      have hc : c < 256 := h c (by simp)
      have ih' := ih (fun x hx => h x (by simp [hx]))
      simp only [sextets, decodeSextets, ih', Option.map_some', Option.some.injEq,
        List.cons.injEq]
      refine ⟨?_, ?_, ?_, trivial⟩ <;> omega
  | case2 a b =>
      have ha : a < 256 := h a (by simp)
      have hb : b < 256 := h b (by simp)
      simp only [sextets, decodeSextets, Option.some.injEq, List.cons.injEq]
      refine ⟨?_, ?_, trivial⟩ <;> omega
  | case3 a =>
      have ha : a < 256 := h a (by simp)
      simp only [sextets, decodeSextets, Option.some.injEq, List.cons.injEq]
      refine ⟨?_, trivial⟩
      omega
  | case4 => simp [sextets, decodeSextets]

theorem sextetsOfChars_map (sx : List Nat) (h : ∀ v ∈ sx, v < 64) :
    sextetsOfChars (sx.map sextetToChar) = some sx := by
  induction sx with
  | nil => simp [sextetsOfChars]
  | cons v vs ih =>
      have hv : v < 64 := h v (by simp)
      have ihv := ih (fun x hx => h x (by simp [hx]))
      simp [sextetsOfChars, charToSextet_sextetToChar v hv, ihv]

theorem encodeChunks_mem (bs : List Nat) (c : Char) (hc : c ∈ encodeChunks bs) :
    (∃ v, v < 64 ∧ c = sextetToChar v) ∨ c = '=' := by
  rw [encodeChunks_eq_sextets] at hc
  rcases List.mem_append.mp hc with h | h
  · rcases List.mem_map.mp h with ⟨v, hv, rfl⟩
    exact Or.inl ⟨v, sextets_lt64 bs v hv, rfl⟩
  · exact Or.inr (List.eq_of_mem_replicate h)

theorem encodeChunks_not_ws (bs : List Nat) : ∀ c ∈ encodeChunks bs, isB64Ws c = false := by
  intro c hc
  rcases encodeChunks_mem bs c hc with ⟨v, hv, rfl⟩ | rfl
  · exact sextetToChar_not_ws v hv
  · decide

theorem encodeChunks_length_mod4 (bs : List Nat) : (encodeChunks bs).length % 4 = 0 := by
  induction bs using sextets.induct with
  | case1 a b c rest ih => simp only [encodeChunks, List.length_cons]; omega
  | case2 a b => simp [encodeChunks]
  | case3 a => simp [encodeChunks]
  | case4 => simp [encodeChunks]

theorem stripPad_no_eq (m : List Char) (hm : ∀ c ∈ m, c ≠ '=') : stripPad m = m := by
  have hlast : m.getLast? ≠ some '=' := by
    intro h
    rcases List.getLast?_eq_some_iff.mp h with ⟨ys, rfl⟩
    exact hm '=' (by simp) rfl
  simp only [stripPad, if_neg hlast]

theorem stripPad_append_pad (m : List Char) (p : Nat) (hm : ∀ c ∈ m, c ≠ '=')
    (hp : p ≤ 2) : stripPad (m ++ List.replicate p '=') = m := by
  have hlast : m.getLast? ≠ some '=' := by
    intro h
    rcases List.getLast?_eq_some_iff.mp h with ⟨ys, rfl⟩
    exact hm '=' (by simp) rfl
  interval_cases p
  · simpa using stripPad_no_eq m hm
  · have h1 : m ++ List.replicate 1 '=' = m ++ ['='] := rfl
    rw [h1]
    simp [stripPad, List.getLast?_concat, hlast]
  · have h2 : m ++ List.replicate 2 '=' = (m ++ ['=']) ++ ['='] := by simp
    rw [h2]
    simp [stripPad, List.getLast?_concat, List.dropLast_concat, hlast]

theorem sextets_length_mod4 (bs : List Nat) : sextets bs ≠ [] → (sextets bs).length % 4 ≠ 1 := by
  induction bs using sextets.induct with
  | case1 a b c rest ih =>
      intro _
      simp only [sextets, List.length_cons]
      by_cases h0 : (sextets rest).length = 0
      · omega
      · have := ih (by intro hc; rw [hc] at h0; simp at h0)
        omega
  | case2 a b => intro _; simp [sextets]
  | case3 a => intro _; simp [sextets]
  | case4 => intro hc; simp [sextets] at hc

theorem sextets_eq_nil_iff (bs : List Nat) : sextets bs = [] ↔ bs = [] := by
  constructor
  · intro h
    match bs with
    | [] => rfl
    | [a] => simp [sextets] at h
    | [a, b] => simp [sextets] at h
    | a :: b :: c :: r => simp [sextets] at h
  · rintro rfl; rfl

theorem sextetChars_ne_eq (bs : List Nat) :
    ∀ c ∈ (sextets bs).map sextetToChar, c ≠ '=' := by
  intro c hc
  rcases List.mem_map.mp hc with ⟨v, hv, rfl⟩
  exact sextetToChar_ne_eq v (sextets_lt64 bs v hv)

theorem atobCore_sextetChars (bs : List Nat) (h : ∀ b ∈ bs, b < 256) :
    atobCore ((sextets bs).map sextetToChar) = .ok bs := by
  by_cases hnil : bs = []
  · subst hnil
    simp [sextets, atobCore, sextetsOfChars, decodeSextets]
  · have hsne : sextets bs ≠ [] := fun hc => hnil ((sextets_eq_nil_iff bs).mp hc)
    have hlen : ((sextets bs).map sextetToChar).length % 4 ≠ 1 := by
      rw [List.length_map]
      exact sextets_length_mod4 bs hsne
    unfold atobCore
    rw [if_neg hlen]
    simp only [sextetsOfChars_map _ (sextets_lt64 bs), decodeSextets_sextets bs h]

theorem atobChars_sextetChars (bs : List Nat) (h : ∀ b ∈ bs, b < 256) :
    atobChars ((sextets bs).map sextetToChar) = .ok bs := by
  have hfilter : ((sextets bs).map sextetToChar).filter (fun c => ¬ isB64Ws c) =
      (sextets bs).map sextetToChar := by
    apply List.filter_eq_self.mpr
    intro c hc
    rcases List.mem_map.mp hc with ⟨v, hv, rfl⟩
    simp [sextetToChar_not_ws v (sextets_lt64 bs v hv)]
  have hstrip := stripPad_no_eq _ (sextetChars_ne_eq bs)
  unfold atobChars
  simp only [hfilter]
  split
  · rw [hstrip, atobCore_sextetChars bs h]
  · rw [atobCore_sextetChars bs h]

theorem dropWhile_of_all_neg {p : Char → Bool} (l : List Char)
    (h : ∀ c ∈ l, p c = false) : l.dropWhile p = l := by
  cases l with
  | nil => rfl
  | cons c cs => exact List.dropWhile_cons_of_neg (by simp [h c (by simp)])

theorem dropWhile_replicate_eq (p : Nat) (l : List Char) :
    (List.replicate p '=' ++ l).dropWhile (fun c => c = '=') =
      l.dropWhile (fun c => c = '=') := by
  induction p with
  | zero => simp
  | succ n ih => simp [List.replicate_succ, ih]

theorem dropTrailingEq_append_pad (m : List Char) (p : Nat)
    (hm : ∀ c ∈ m, c ≠ '=') : dropTrailingEq (m ++ List.replicate p '=') = m := by
  unfold dropTrailingEq
  rw [List.reverse_append, List.reverse_replicate, dropWhile_replicate_eq,
    dropWhile_of_all_neg m.reverse (by
      intro c hc
      simp only [decide_eq_false_iff_not]
      exact hm c (List.mem_reverse.mp hc)), List.reverse_reverse]

theorem atobChars_encodeChunks (bs : List Nat) (h : ∀ b ∈ bs, b < 256) :
    atobChars (encodeChunks bs) = .ok bs := by
  have hfilter : (encodeChunks bs).filter (fun c => ¬ isB64Ws c) = encodeChunks bs := by
    apply List.filter_eq_self.mpr
    intro c hc
    simp [encodeChunks_not_ws bs c hc]
  have hpad : padLen bs.length ≤ 2 := by unfold padLen; split <;> [omega; split <;> omega]
  unfold atobChars
  simp only [hfilter, encodeChunks_length_mod4 bs, if_pos]
  rw [encodeChunks_eq_sextets bs,
    stripPad_append_pad _ _ (sextetChars_ne_eq bs) hpad,
    atobCore_sextetChars bs h]

-- ── Lemmas: base64url round trip ─────────────────────────────────────

/-- The base64url segment `base64UrlEncode` produces for a byte list. -/
def b64urlOfBytes (bs : List Nat) : List Char :=
  (sextets bs).map (fun v => urlChar (sextetToChar v))

theorem base64UrlEncodeChars_ok (cs : List Char) (h : ∀ c ∈ cs, c.toNat ≤ 255) :
    base64UrlEncodeChars cs = .ok (b64urlOfBytes (cs.map Char.toNat)) := by
  have hall : cs.all (fun c => c.toNat ≤ 255) = true := by
    simp only [List.all_eq_true, decide_eq_true_eq]
    exact h
  unfold base64UrlEncodeChars btoaChars
  rw [if_pos hall]
  show Except.ok (dropTrailingEq ((encodeChunks (cs.map Char.toNat)).map urlChar)) = _
  rw [encodeChunks_eq_sextets, List.map_append, List.map_map, List.map_replicate]
  have hrep : List.replicate (padLen (cs.map Char.toNat).length) (urlChar '=') =
      List.replicate (padLen (cs.map Char.toNat).length) '=' := rfl
  rw [hrep, dropTrailingEq_append_pad _ _ (by
    intro c hc
    rcases List.mem_map.mp hc with ⟨v, hv, rfl⟩
    exact url_sextet_ne_eq v (sextets_lt64 _ v hv))]
  rfl

theorem b64urlOfBytes_decode (bs : List Nat) (h : ∀ b ∈ bs, b < 256) :
    base64UrlDecodeChars (b64urlOfBytes bs) = .ok bs := by
  unfold base64UrlDecodeChars b64urlOfBytes
  rw [List.map_map]
  have hmap : (sextets bs).map (unUrlChar ∘ fun v => urlChar (sextetToChar v)) =
      (sextets bs).map sextetToChar := by
    apply List.map_congr_left
    intro v hv
    exact unUrl_url_sextet v (sextets_lt64 bs v hv)
  rw [hmap]
  exact atobChars_sextetChars bs h

theorem b64urlOfBytes_no_dot (bs : List Nat) : ∀ c ∈ b64urlOfBytes bs, c ≠ '.' := by
  intro c hc
  rcases List.mem_map.mp hc with ⟨v, hv, rfl⟩
  exact url_sextet_ne_dot v (sextets_lt64 bs v hv)

-- ── Lemmas: `splitOnDot` ─────────────────────────────────────────────

theorem splitOnDot_ne_nil (l : List Char) : splitOnDot l ≠ [] := by
  induction l with
  | nil => simp [splitOnDot]
  | cons c rest ih =>
      unfold splitOnDot
      split
      · simp
      · match h : splitOnDot rest with
        | [] => simp
        | p :: ps => simp

theorem splitOnDot_no_dot (l : List Char) (h : ∀ c ∈ l, c ≠ '.') :
    splitOnDot l = [l] := by
  induction l with
  | nil => rfl
  | cons c rest ih =>
      have hc : c ≠ '.' := h c (by simp)
      have hrest := ih (fun x hx => h x (by simp [hx]))
      unfold splitOnDot
      rw [if_neg hc, hrest]

theorem splitOnDot_append (a rest : List Char) (h : ∀ c ∈ a, c ≠ '.') :
    splitOnDot (a ++ '.' :: rest) = a :: splitOnDot rest := by
  induction a with
  | nil => simp [splitOnDot]
  | cons c cs ih =>
      have hc : c ≠ '.' := h c (by simp)
      have ih' := ih (fun x hx => h x (by simp [hx]))
      simp only [List.cons_append]
      conv_lhs => rw [splitOnDot]
      rw [if_neg hc, ih']

-- ── Lemmas: password hashing round trip ──────────────────────────────

theorem encodeChunks_no_dot (bs : List Nat) : ∀ c ∈ encodeChunks bs, c ≠ '.' := by
  intro c hc
  rcases encodeChunks_mem bs c hc with ⟨v, hv, rfl⟩ | rfl
  · exact sextetToChar_ne_dot v hv
  · decide

theorem encodeChunks_ne_nil (bs : List Nat) (h : bs ≠ []) : encodeChunks bs ≠ [] := by
  match bs with
  | [] => exact absurd rfl h
  | [a] => simp [encodeChunks]
  | [a, b] => simp [encodeChunks]
  | a :: b :: c :: r => simp [encodeChunks]

theorem ctLoop_self (l : List Nat) : (ctLoop l l).1 = 0 := by
  induction l with
  | nil => rfl
  | cons x xs ih =>
      simp only [ctLoop, ih]
      exact Nat.zero_or _ ▸ Nat.xor_self x

theorem exceptOk_bind {α β : Type} (a : α) (f : α → Except JsError β) :
    (Except.ok a >>= f) = f a := rfl

theorem verifyPassword_hashPassword (deriveKey : String → List Nat → List Nat)
    (p : String) (salt : List Nat)
    (hs256 : ∀ b ∈ salt, b < 256) (hsne : salt ≠ [])
    (hd256 : ∀ b ∈ deriveKey p salt, b < 256) (hdne : deriveKey p salt ≠ []) :
    verifyPassword deriveKey p (hashPassword deriveKey p salt) = .ok true := by
  unfold hashPassword verifyPassword arrayBufferToBase64
  rw [splitOnDot_append _ _ (encodeChunks_no_dot salt),
    splitOnDot_no_dot _ (encodeChunks_no_dot (deriveKey p salt))]
  simp only [List.getD_cons_zero, List.getD_cons_succ]
  rw [if_neg (by
    push_neg
    exact ⟨encodeChunks_ne_nil salt hsne, encodeChunks_ne_nil _ hdne⟩)]
  simp only [atobChars_encodeChunks salt hs256, atobChars_encodeChunks _ hd256]
  rw [exceptOk_bind, exceptOk_bind, if_neg (by simp), ctLoop_self]
  rfl

-- ── Lemmas: decimal printing round trip ──────────────────────────────

/-- Little-endian value of a digit list. -/
def valRev : List Nat → Nat
  | [] => 0
  | d :: ds => valRev ds * 10 + d

theorem natDigitsRevAux_lt10 (fuel : Nat) :
    ∀ n, n ≤ fuel → ∀ d ∈ natDigitsRevAux fuel n, d < 10 := by
  induction fuel with
  | zero =>
      intro n hn d hd
      have h0 : n = 0 := by omega
      subst h0
      simp [natDigitsRevAux] at hd
      omega
  | succ f ih =>
      intro n hn d hd
      unfold natDigitsRevAux at hd
      by_cases h10 : n < 10
      · rw [if_pos h10] at hd
        simp at hd
        omega
      · rw [if_neg h10] at hd
        rcases List.mem_cons.mp hd with rfl | hmem
        · omega
        · exact ih (n / 10) (by omega) d hmem

theorem natDigitsRev_lt10 (n : Nat) : ∀ d ∈ natDigitsRev n, d < 10 :=
  natDigitsRevAux_lt10 n n (Nat.le_refl n)

theorem natDigitsRev_ne_nil (n : Nat) : natDigitsRev n ≠ [] := by
  unfold natDigitsRev
  cases n with
  | zero => simp [natDigitsRevAux]
  | succ m =>
      unfold natDigitsRevAux
      split <;> simp

theorem valRev_natDigitsRevAux (fuel : Nat) :
    ∀ n, n ≤ fuel → valRev (natDigitsRevAux fuel n) = n := by
  induction fuel with
  | zero =>
      intro n hn
      have h0 : n = 0 := by omega
      subst h0
      simp [natDigitsRevAux, valRev]
  | succ f ih =>
      intro n hn
      unfold natDigitsRevAux
      by_cases h10 : n < 10
      · rw [if_pos h10]
        simp [valRev]
      · rw [if_neg h10]
        simp only [valRev, ih (n / 10) (by omega)]
        omega

theorem valRev_natDigitsRev (n : Nat) : valRev (natDigitsRev n) = n :=
  valRev_natDigitsRevAux n n (Nat.le_refl n)

theorem digitChar_toNat : ∀ d, d < 10 → (digitChar d).toNat = 48 + d := by decide

theorem digitChar_isDigit : ∀ d, d < 10 → isDigit (digitChar d) = true := by decide

theorem foldl_digits_reverse (l : List Nat) (acc : Nat) :
    l.reverse.foldl (fun a d => a * 10 + d) acc = acc * 10 ^ l.length + valRev l := by
  induction l generalizing acc with
  | nil => simp [valRev]
  | cons d ds ih =>
      simp only [List.reverse_cons, List.foldl_append, List.foldl_cons, List.foldl_nil,
        ih, valRev, List.length_cons]
      ring

theorem digitsVal_natChars (n : Nat) : digitsVal (natChars n) = n := by
  unfold digitsVal natChars
  rw [List.foldl_map]
  have hext : ((natDigitsRev n).reverse).foldl
      (fun acc d => acc * 10 + ((digitChar d).toNat - 48)) 0 =
      ((natDigitsRev n).reverse).foldl (fun acc d => acc * 10 + d) 0 := by
    apply List.foldl_ext
    intro a d hd
    rw [digitChar_toNat d (natDigitsRev_lt10 n d (List.mem_reverse.mp hd))]
    omega
  rw [hext, foldl_digits_reverse, valRev_natDigitsRev]
  omega

theorem natChars_ne_nil (n : Nat) : natChars n ≠ [] := by
  unfold natChars
  simp [natDigitsRev_ne_nil]

theorem natChars_all_digit (n : Nat) : ∀ c ∈ natChars n, isDigit c = true := by
  intro c hc
  unfold natChars at hc
  rcases List.mem_map.mp hc with ⟨d, hd, rfl⟩
  exact digitChar_isDigit d (natDigitsRev_lt10 n d (List.mem_reverse.mp hd))

-- ── Lemmas: number parsing ───────────────────────────────────────────

theorem takeWhile_append_all {p : Char → Bool} (a r : List Char)
    (ha : ∀ c ∈ a, p c = true) (hr : ∀ c, r.head? = some c → p c = false) :
    (a ++ r).takeWhile p = a := by
  induction a with
  | nil =>
      simp only [List.nil_append]
      cases r with
      | nil => rfl
      | cons c cs => exact List.takeWhile_cons_of_neg (by simp [hr c rfl])
  | cons x xs ih =>
      simp only [List.cons_append]
      rw [List.takeWhile_cons_of_pos (ha x (by simp)),
        ih (fun c hc => ha c (by simp [hc]))]

theorem dropWhile_append_all {p : Char → Bool} (a r : List Char)
    (ha : ∀ c ∈ a, p c = true) (hr : ∀ c, r.head? = some c → p c = false) :
    (a ++ r).dropWhile p = r := by
  induction a with
  | nil =>
      simp only [List.nil_append]
      cases r with
      | nil => rfl
      | cons c cs => exact List.dropWhile_cons_of_neg (by simp [hr c rfl])
  | cons x xs ih =>
      simp only [List.cons_append]
      rw [List.dropWhile_cons_of_pos (ha x (by simp)),
        ih (fun c hc => ha c (by simp [hc]))]

theorem parseIntNum_natChars (n : Nat) (r : List Char)
    (hr : ∀ c, r.head? = some c → isDigit c = false) :
    parseIntNum (natChars n ++ r) = some ((n : Int), r) := by
  obtain ⟨d, ds, hds⟩ : ∃ d ds, natChars n = d :: ds := by
    cases h : natChars n with
    | nil => exact absurd h (natChars_ne_nil n)
    | cons d ds => exact ⟨d, ds, rfl⟩
  have hd : isDigit d = true := natChars_all_digit n d (by rw [hds]; simp)
  have hdne : d ≠ '-' := by
    intro hcd
    rw [hcd] at hd
    simp [isDigit] at hd
  have htake : (natChars n ++ r).takeWhile isDigit = natChars n :=
    takeWhile_append_all _ _ (natChars_all_digit n) hr
  have hdrop : (natChars n ++ r).dropWhile isDigit = r :=
    dropWhile_append_all _ _ (natChars_all_digit n) hr
  rw [hds, List.cons_append]
  unfold parseIntNum
  split
  · rename_i rest heq
    rw [List.cons.injEq] at heq
    exact absurd heq.1 hdne
  · rename_i heq
    rw [← List.cons_append, ← hds, htake, hdrop]
    rw [if_neg (by simp [natChars_ne_nil n]), digitsVal_natChars]

theorem parseIntNum_intChars (i : Int) (r : List Char)
    (hr : ∀ c, r.head? = some c → isDigit c = false) :
    parseIntNum (intChars i ++ r) = some (i, r) := by
  unfold intChars
  by_cases hi : i < 0
  · rw [if_pos hi, List.cons_append]
    have htake : (natChars i.natAbs ++ r).takeWhile isDigit = natChars i.natAbs :=
      takeWhile_append_all _ _ (natChars_all_digit _) hr
    have hdrop : (natChars i.natAbs ++ r).dropWhile isDigit = r :=
      dropWhile_append_all _ _ (natChars_all_digit _) hr
    unfold parseIntNum
    split
    · rename_i rest heq
      rw [List.cons.injEq] at heq
      rw [← heq.2, htake, hdrop, if_neg (by simp [natChars_ne_nil]), digitsVal_natChars]
      have hnn : -((i.natAbs : Int)) = i := by omega
      rw [hnn]
    · rename_i hcontra
      exact absurd rfl (hcontra (natChars i.natAbs ++ r))
  · rw [if_neg hi, parseIntNum_natChars _ _ hr]
    have hp : ((i.natAbs : Int)) = i := by omega
    rw [hp]

-- ── Lemmas: JSON string escaping round trip ──────────────────────────

theorem hexVal_hexChar : ∀ v, v < 16 → hexVal (hexChar v) = some v := by decide

theorem ofNatAux_eq_ofNat (n : Nat) (h : n.isValidChar) :
    Char.ofNatAux n h = Char.ofNat n := by
  rw [Char.ofNat, dif_pos h]

theorem parseStringBody_cons_plain (c : Char) (tail : List Char)
    (h1 : c ≠ '"') (h2 : c ≠ '\\') (h3 : ¬ c.toNat < 32) :
    parseStringBody (c :: tail) =
      (parseStringBody tail).map (fun r => (c :: r.1, r.2)) := by
  conv_lhs => unfold parseStringBody
  split
  · rename_i heq
    exact absurd heq (by simp)
  · first
    | exact absurd rfl h1
    | (rename_i heq
       injection heq with hh ht
       exact absurd hh h1)
  · first
    | exact absurd rfl h2
    | (rename_i heq
       injection heq with hh ht
       exact absurd hh h2)
  · first
    | exact absurd rfl h2
    | (rename_i heq
       injection heq with hh ht
       exact absurd hh h2)
  · first
    | rw [if_neg h3]
    | (rename_i heq
       injection heq with hh ht
       subst hh
       subst ht
       rw [if_neg h3])

theorem skipWs_cons_of_not (c : Char) (l : List Char) (h : isJsonWs c = false) :
    skipWs (c :: l) = c :: l := by
  unfold skipWs
  exact List.dropWhile_cons_of_neg (by simp [h])

theorem isJsonWs_num_start (c : Char)
    (hc : c.toNat = 45 ∨ (48 ≤ c.toNat ∧ c.toNat ≤ 57)) : isJsonWs c = false := by
  simp only [isJsonWs, decide_eq_false_iff_not]
  omega

theorem parseValue_num_start (f : Nat) (c : Char) (T : List Char)
    (hc : c.toNat = 45 ∨ (48 ≤ c.toNat ∧ c.toNat ≤ 57)) :
    parseValue (f + 1) (c :: T) =
      (parseIntNum (c :: T)).map (fun r => (Json.num r.1, r.2)) := by
  unfold parseValue
  rw [skipWs_cons_of_not c T (isJsonWs_num_start c hc)]
  split
  all_goals first
  | rfl
  | exact absurd hc (by decide)
  | (rename_i heq
     injection heq with hh ht
     rw [hh] at hc
     exact absurd hc (by decide))

theorem parseStringBody_escape (s r : List Char) :
    parseStringBody (s.flatMap escapeChar ++ '"' :: r) = some (s, r) := by
  induction s with
  | nil => simp [parseStringBody]
  | cons c cs ih =>
      rw [List.flatMap_cons, List.append_assoc]
      by_cases hq : c = '"'
      · subst hq
        rw [show escapeChar '"' = ['\\', '"'] from rfl]
        simp [parseStringBody, ih]
      · by_cases hb : c = '\\'
        · subst hb
          rw [show escapeChar '\\' = ['\\', '\\'] from rfl]
          simp [parseStringBody, ih]
        · by_cases h8 : c.toNat = 8
          · have hesc : escapeChar c = ['\\', 'b'] := by simp [escapeChar, hq, hb, h8]
            have hc : c = Char.ofNat 8 := by rw [← h8, Char.ofNat_toNat]
            rw [hesc]
            simp [parseStringBody, ih, hc]
          · by_cases h9 : c.toNat = 9
            · have hesc : escapeChar c = ['\\', 't'] := by
                simp [escapeChar, hq, hb, h8, h9]
              have hc : c = '\t' := by
                rw [show ('\t' : Char) = Char.ofNat 9 from rfl, ← h9, Char.ofNat_toNat]
              rw [hesc]
              simp [parseStringBody, ih, hc]
            · by_cases h10 : c.toNat = 10
              · have hesc : escapeChar c = ['\\', 'n'] := by
                  simp [escapeChar, hq, hb, h8, h9, h10]
                have hc : c = '\n' := by
                  rw [show ('\n' : Char) = Char.ofNat 10 from rfl, ← h10, Char.ofNat_toNat]
                rw [hesc]
                simp [parseStringBody, ih, hc]
              · by_cases h12 : c.toNat = 12
                · have hesc : escapeChar c = ['\\', 'f'] := by
                    simp [escapeChar, hq, hb, h8, h9, h10, h12]
                  have hc : c = Char.ofNat 12 := by rw [← h12, Char.ofNat_toNat]
                  rw [hesc]
                  simp [parseStringBody, ih, hc]
                · by_cases h13 : c.toNat = 13
                  · have hesc : escapeChar c = ['\\', 'r'] := by
                      simp [escapeChar, hq, hb, h8, h9, h10, h12, h13]
                    have hc : c = Char.ofNat 13 := by rw [← h13, Char.ofNat_toNat]
                    rw [hesc]
                    simp [parseStringBody, ih, hc]
                  · by_cases hlt : c.toNat < 32
                    · have hesc : escapeChar c =
                          ['\\', 'u', '0', '0', hexChar (c.toNat / 16), hexChar (c.toNat % 16)] := by
                        simp [escapeChar, hq, hb, h8, h9, h10, h12, h13, hlt]
                      rw [hesc]
                      simp only [List.cons_append, List.nil_append]
                      rw [show parseStringBody ('\\' :: 'u' :: '0' :: '0' ::
                          hexChar (c.toNat / 16) :: hexChar (c.toNat % 16) ::
                          (cs.flatMap escapeChar ++ '"' :: r)) = _ from rfl]
                      simp only [parseStringBody]
                      rw [show hexVal '0' = some 0 from rfl,
                        hexVal_hexChar (c.toNat / 16) (by omega),
                        hexVal_hexChar (c.toNat % 16) (by omega)]
                      simp only [Option.bind_eq_bind, Option.some_bind]
                      have hcode : (((0 * 16 + 0) * 16 + c.toNat / 16) * 16 + c.toNat % 16) % 65536 =
                          c.toNat := by omega
                      simp only [hcode]
                      rw [dif_pos (Or.inl (by omega : c.toNat < 55296))]
                      rw [ih, ofNatAux_eq_ofNat, Char.ofNat_toNat]
                      rfl
                    · have hesc : escapeChar c = [c] := by
                        simp [escapeChar, hq, hb, h8, h9, h10, h12, h13, hlt]
                      rw [hesc]
                      simp only [List.cons_append, List.nil_append]
                      rw [parseStringBody_cons_plain c _ hq hb hlt, ih]
                      rfl

theorem parseValue_strLit (f : Nat) (s r : List Char) :
    parseValue (f + 1) ('"' :: (s.flatMap escapeChar ++ '"' :: r)) =
      some (.str s, r) := by
  unfold parseValue
  rw [skipWs_cons_of_not _ _ (by decide)]
  simp [parseStringBody_escape]

theorem intChars_head (i : Int) :
    ∃ c T, intChars i = c :: T ∧ (c.toNat = 45 ∨ (48 ≤ c.toNat ∧ c.toNat ≤ 57)) := by
  unfold intChars
  by_cases hi : i < 0
  · rw [if_pos hi]
    exact ⟨'-', natChars i.natAbs, rfl, Or.inl rfl⟩
  · rw [if_neg hi]
    cases h : natChars i.natAbs with
    | nil => exact absurd h (natChars_ne_nil _)
    | cons c T =>
        have hd : isDigit c = true := natChars_all_digit _ c (by rw [h]; simp)
        simp only [isDigit, decide_eq_true_eq] at hd
        exact ⟨c, T, rfl, Or.inr hd⟩

theorem parseValue_intChars (f : Nat) (i : Int) (r : List Char)
    (hr : ∀ c, r.head? = some c → isDigit c = false) :
    parseValue (f + 1) (intChars i ++ r) = some (.num i, r) := by
  obtain ⟨c, T, hct, hc⟩ := intChars_head i
  rw [hct, List.cons_append, parseValue_num_start f c _ hc, ← List.cons_append, ← hct,
    parseIntNum_intChars i r hr]
  rfl

theorem parseFields_step (g : Nat) (K REST : List Char) (v : Json) (rest2 : List Char)
    (hK : K.flatMap escapeChar = K)
    (hval : parseValue g REST = some (v, rest2)) :
    parseFields (g + 1) ('"' :: (K ++ '"' :: ':' :: REST)) =
      (match skipWs rest2 with
       | ',' :: next => (parseFields g next).map (fun r => ((K, v) :: r.1, r.2))
       | '\x7d' :: next => some ([(K, v)], next)
       | _ => none) := by
  have hkey : parseStringBody (K ++ '"' :: (':' :: REST)) = some (K, ':' :: REST) := by
    have h := parseStringBody_escape K (':' :: REST)
    rw [hK] at h
    exact h
  conv_lhs => unfold parseFields
  rw [skipWs_cons_of_not _ _ (by decide)]
  simp only [hkey, Option.some_bind, Option.bind_eq_bind,
    skipWs_cons_of_not ':' REST (by decide), hval]

theorem parseValue_obj_open (f : Nat) (R : List Char) :
    parseValue (f + 1) ('\x7b' :: '"' :: R) =
      (parseFields f ('"' :: R)).map (fun r => (Json.obj r.1, r.2)) := by
  unfold parseValue
  rw [skipWs_cons_of_not _ _ (by decide)]
  rfl

theorem parseFields_sub_step (g : Nat) (REST TAIL : List Char) (v : Json)
    (hval : parseValue g REST = some (v, ',' :: TAIL)) :
    parseFields (g + 1) ('"' :: 's' :: 'u' :: 'b' :: '"' :: ':' :: REST) =
      (parseFields g TAIL).map (fun r => (((['s', 'u', 'b'] : List Char), v) :: r.1, r.2)) :=
  parseFields_step g ['s', 'u', 'b'] REST v (',' :: TAIL) rfl hval

theorem parseFields_email_step (g : Nat) (REST TAIL : List Char) (v : Json)
    (hval : parseValue g REST = some (v, ',' :: TAIL)) :
    parseFields (g + 1) ('"' :: 'e' :: 'm' :: 'a' :: 'i' :: 'l' :: '"' :: ':' :: REST) =
      (parseFields g TAIL).map
        (fun r => (((['e', 'm', 'a', 'i', 'l'] : List Char), v) :: r.1, r.2)) :=
  parseFields_step g ['e', 'm', 'a', 'i', 'l'] REST v (',' :: TAIL) rfl hval

theorem parseFields_iat_step (g : Nat) (REST TAIL : List Char) (v : Json)
    (hval : parseValue g REST = some (v, ',' :: TAIL)) :
    parseFields (g + 1) ('"' :: 'i' :: 'a' :: 't' :: '"' :: ':' :: REST) =
      (parseFields g TAIL).map (fun r => (((['i', 'a', 't'] : List Char), v) :: r.1, r.2)) :=
  parseFields_step g ['i', 'a', 't'] REST v (',' :: TAIL) rfl hval

theorem parseFields_exp_step (g : Nat) (REST : List Char) (v : Json)
    (hval : parseValue g REST = some (v, ['\x7d'])) :
    parseFields (g + 1) ('"' :: 'e' :: 'x' :: 'p' :: '"' :: ':' :: REST) =
      some ([((['e', 'x', 'p'] : List Char), v)], []) :=
  parseFields_step g ['e', 'x', 'p'] REST v ['\x7d'] rfl hval

theorem parseValue_payload (m : Nat) (sub : Int) (email : List Char) (iat exp : Int) :
    parseValue (m + 6) (payloadJsonChars sub email iat exp) =
      some (payloadObj sub email iat exp, []) := by
  unfold payloadJsonChars stringifyStr
  rw [show ("\x7b\"sub\":").data = ['\x7b','"','s','u','b','"',':'] from rfl,
      show (",\"email\":").data = [',','"','e','m','a','i','l','"',':'] from rfl,
      show (",\"iat\":").data = [',','"','i','a','t','"',':'] from rfl,
      show (",\"exp\":").data = [',','"','e','x','p','"',':'] from rfl]
  simp only [List.cons_append, List.nil_append, List.append_assoc]
  rw [show m + 6 = (m + 5) + 1 from rfl, parseValue_obj_open,
      show m + 5 = (m + 4) + 1 from rfl,
      parseFields_sub_step (m + 4) _ _ (Json.num sub)
        (by
          rw [show m + 4 = (m + 3) + 1 from rfl]
          exact parseValue_intChars (m + 3) sub _ (fun c hc => by
            simp at hc
            rw [← hc]
            decide)),
      show m + 4 = (m + 3) + 1 from rfl,
      parseFields_email_step (m + 3) _ _ (Json.str email)
        (by
          rw [show m + 3 = (m + 2) + 1 from rfl]
          exact parseValue_strLit (m + 2) email _),
      show m + 3 = (m + 2) + 1 from rfl,
      parseFields_iat_step (m + 2) _ _ (Json.num iat)
        (by
          rw [show m + 2 = (m + 1) + 1 from rfl]
          exact parseValue_intChars (m + 1) iat _ (fun c hc => by
            simp at hc
            rw [← hc]
            decide)),
      show m + 2 = (m + 1) + 1 from rfl,
      parseFields_exp_step (m + 1) _ (Json.num exp)
        (parseValue_intChars m exp _ (fun c hc => by
          simp at hc
          rw [← hc]
          decide))]
  rfl

theorem payloadJsonChars_length (sub : Int) (email : List Char) (iat exp : Int) :
    6 ≤ (payloadJsonChars sub email iat exp).length := by
  unfold payloadJsonChars
  rw [show ("\x7b\"sub\":").data = ['\x7b','"','s','u','b','"',':'] from rfl]
  simp only [List.length_append, List.length_cons]
  omega

theorem jsonParse_payload (sub : Int) (email : List Char) (iat exp : Int) :
    jsonParse (payloadJsonChars sub email iat exp) =
      some (payloadObj sub email iat exp) := by
  unfold jsonParse
  obtain ⟨m, hm⟩ : ∃ m, (payloadJsonChars sub email iat exp).length + 1 = m + 6 :=
    ⟨(payloadJsonChars sub email iat exp).length - 5, by
      have := payloadJsonChars_length sub email iat exp
      omega⟩
  rw [hm, parseValue_payload]
  rfl

-- ── Lemmas: byte bounds of the serialized JSON ───────────────────────

theorem toNat_ofNat_valid (n : Nat) (h : Nat.isValidChar n) :
    (Char.ofNat n).toNat = n := by
  rw [Char.ofNat, dif_pos h]
  rfl

theorem toNat_charOfByte (b : Nat) : (charOfByte b).toNat = b % 256 := by
  unfold charOfByte
  rw [toNat_ofNat_valid]
  exact Or.inl (by omega)

theorem hexChar_le255 (v : Nat) : (hexChar v).toNat ≤ 255 := by
  unfold hexChar
  split
  · rw [toNat_ofNat_valid _ (Or.inl (by omega))]
    omega
  · rw [toNat_ofNat_valid _ (Or.inl (by omega))]
    omega

theorem escapeChar_le255 (c : Char) (hc : c.toNat ≤ 255) :
    ∀ d ∈ escapeChar c, d.toNat ≤ 255 := by
  intro d hd
  by_cases hq : c = '"'
  · subst hq
    simp [escapeChar] at hd
    rcases hd with rfl | rfl <;> decide
  · by_cases hb : c = '\\'
    · subst hb
      simp [escapeChar] at hd
      rcases hd with rfl | rfl
      all_goals decide
    · by_cases h8 : c.toNat = 8
      · rw [show escapeChar c = ['\\', 'b'] from by simp [escapeChar, hq, hb, h8]] at hd
        simp at hd
        rcases hd with rfl | rfl <;> decide
      · by_cases h9 : c.toNat = 9
        · rw [show escapeChar c = ['\\', 't'] from by
            simp [escapeChar, hq, hb, h8, h9]] at hd
          simp at hd
          rcases hd with rfl | rfl <;> decide
        · by_cases h10 : c.toNat = 10
          · rw [show escapeChar c = ['\\', 'n'] from by
              simp [escapeChar, hq, hb, h8, h9, h10]] at hd
            simp at hd
            rcases hd with rfl | rfl <;> decide
          · by_cases h12 : c.toNat = 12
            · rw [show escapeChar c = ['\\', 'f'] from by
                simp [escapeChar, hq, hb, h8, h9, h10, h12]] at hd
              simp at hd
              rcases hd with rfl | rfl <;> decide
            · by_cases h13 : c.toNat = 13
              · rw [show escapeChar c = ['\\', 'r'] from by
                  simp [escapeChar, hq, hb, h8, h9, h10, h12, h13]] at hd
                simp at hd
                rcases hd with rfl | rfl <;> decide
              · by_cases hlt : c.toNat < 32
                · rw [show escapeChar c =
                      ['\\', 'u', '0', '0', hexChar (c.toNat / 16), hexChar (c.toNat % 16)]
                      from by simp [escapeChar, hq, hb, h8, h9, h10, h12, h13, hlt]] at hd
                  simp at hd
                  rcases hd with rfl | rfl | rfl | rfl | rfl
                  all_goals first
                    | decide
                    | exact hexChar_le255 _
                · rw [show escapeChar c = [c] from by
                    simp [escapeChar, hq, hb, h8, h9, h10, h12, h13, hlt]] at hd
                  simp at hd
                  rw [hd]
                  exact hc

theorem natChars_le255 (n : Nat) : ∀ c ∈ natChars n, c.toNat ≤ 255 := by
  intro c hc
  have hd := natChars_all_digit n c hc
  simp only [isDigit, decide_eq_true_eq] at hd
  omega

theorem intChars_le255 (i : Int) : ∀ c ∈ intChars i, c.toNat ≤ 255 := by
  intro c hc
  unfold intChars at hc
  split at hc
  · rcases List.mem_cons.mp hc with rfl | hmem
    · decide
    · exact natChars_le255 _ c hmem
  · exact natChars_le255 _ c hc

theorem payloadJsonChars_le255 (sub : Int) (email : List Char) (iat exp : Int)
    (he : ∀ c ∈ email, c.toNat ≤ 255) :
    ∀ c ∈ payloadJsonChars sub email iat exp, c.toNat ≤ 255 := by
  have happ : ∀ (A B : List Char), (∀ c ∈ A, c.toNat ≤ 255) →
      (∀ c ∈ B, c.toNat ≤ 255) → ∀ c ∈ A ++ B, c.toNat ≤ 255 := by
    intro A B hA hB c hc
    rcases List.mem_append.mp hc with h | h
    exacts [hA c h, hB c h]
  have hstr : ∀ c ∈ stringifyStr email, c.toNat ≤ 255 := by
    intro c hc
    unfold stringifyStr at hc
    rcases List.mem_cons.mp hc with rfl | hc2
    · decide
    · rcases List.mem_append.mp hc2 with h | h
      · rcases List.mem_flatMap.mp h with ⟨d, hd, hcd⟩
        exact escapeChar_le255 d (he d hd) c hcd
      · simp at h
        rw [h]
        decide
  unfold payloadJsonChars
  simp only [List.append_assoc]
  exact happ _ _ (by decide) (happ _ _ (intChars_le255 sub) (happ _ _ (by decide)
    (happ _ _ hstr (happ _ _ (by decide) (happ _ _ (intChars_le255 iat)
      (happ _ _ (by decide) (happ _ _ (intChars_le255 exp) (by decide))))))))

theorem headerJsonChars_le255 : ∀ c ∈ headerJsonChars, c.toNat ≤ 255 := by decide

-- ── Lemmas: `createToken` normal form ────────────────────────────────

/-- The `header.payload` signing input of a fresh token. -/
def signingInputChars (userId : Int) (email : List Char) (now : Int) : List Char :=
  b64urlOfBytes (headerJsonChars.map Char.toNat) ++ '.' ::
    b64urlOfBytes ((payloadJsonChars userId email now
      (now + JWT_EXPIRATION_SECONDS)).map Char.toNat)

/-- The token string `createToken` produces. -/
def tokenChars (hmac : Hmac) (userId : Int) (email : List Char)
    (secret : String) (now : Int) : List Char :=
  signingInputChars userId email now ++ '.' ::
    b64urlOfBytes ((hmac secret
      (String.mk (signingInputChars userId email now))).map (fun b => b % 256))

theorem map_toNat_charOfByte (bs : List Nat) :
    (bs.map charOfByte).map Char.toNat = bs.map (fun b => b % 256) := by
  rw [List.map_map]
  apply List.map_congr_left
  intro b _
  exact toNat_charOfByte b

theorem map_mod_of_lt (bs : List Nat) (h : ∀ b ∈ bs, b < 256) :
    bs.map (fun b => b % 256) = bs := by
  induction bs with
  | nil => rfl
  | cons b rest ih =>
      have hb : b < 256 := h b (by simp)
      simp only [List.map_cons, ih (fun x hx => h x (by simp [hx]))]
      congr 1
      omega

theorem map_mod_mod (bs : List Nat) :
    (bs.map (fun b => b % 256)).map (fun b => b % 256) = bs.map (fun b => b % 256) := by
  apply map_mod_of_lt
  intro b hb
  rcases List.mem_map.mp hb with ⟨x, _, rfl⟩
  omega

theorem createToken_ok (hmac : Hmac) (userId : Int) (email : List Char)
    (secret : String) (now : Int) (he : ∀ c ∈ email, c.toNat ≤ 255) :
    createToken hmac userId email secret now =
      .ok (tokenChars hmac userId email secret now) := by
  unfold createToken
  rw [base64UrlEncodeChars_ok headerJsonChars headerJsonChars_le255, exceptOk_bind,
    base64UrlEncodeChars_ok _
      (payloadJsonChars_le255 userId email now (now + JWT_EXPIRATION_SECONDS) he),
    exceptOk_bind]
  dsimp only
  rw [base64UrlEncodeChars_ok _ (by
      intro c hc
      rcases List.mem_map.mp hc with ⟨b, _, rfl⟩
      rw [toNat_charOfByte]
      omega),
    exceptOk_bind]
  unfold tokenChars signingInputChars
  rw [map_toNat_charOfByte, map_mod_mod]
  rfl

-- ── Lemmas: `verifyToken` on a well-formed token ─────────────────────

theorem verifyToken_three_parts (hmac : Hmac) (hdr pseg sseg : List Char)
    (secret : String) (now : Int)
    (hh : ∀ c ∈ hdr, c ≠ '.') (hp : ∀ c ∈ pseg, c ≠ '.') (hs : ∀ c ∈ sseg, c ≠ '.') :
    verifyToken hmac (hdr ++ '.' :: (pseg ++ '.' :: sseg)) secret now =
      verifyTokenCore hmac hdr pseg sseg secret now := by
  unfold verifyToken
  rw [splitOnDot_append _ _ hh, splitOnDot_append _ _ hp, splitOnDot_no_dot _ hs]
  rfl

theorem map_charOfByte_toNat (cs : List Char) (h : ∀ c ∈ cs, c.toNat ≤ 255) :
    (cs.map Char.toNat).map charOfByte = cs := by
  rw [List.map_map]
  have hcongr : cs.map (charOfByte ∘ Char.toNat) = cs.map id := by
    apply List.map_congr_left
    intro c hc
    have h255 := h c hc
    simp only [Function.comp_apply, id_eq]
    unfold charOfByte
    rw [Nat.mod_eq_of_lt (by omega), Char.ofNat_toNat]
  rw [hcongr, List.map_id]

theorem verifyTokenCore_fresh (hmac : Hmac) (userId : Int) (email : List Char)
    (secret : String) (now now2 : Int)
    (he : ∀ c ∈ email, c.toNat ≤ 255)
    (hb : ∀ b ∈ hmac secret (String.mk (signingInputChars userId email now)), b < 256)
    (hexp : ¬ (now + JWT_EXPIRATION_SECONDS < now2)) :
    verifyTokenCore hmac (b64urlOfBytes (headerJsonChars.map Char.toNat))
      (b64urlOfBytes ((payloadJsonChars userId email now
        (now + JWT_EXPIRATION_SECONDS)).map Char.toNat))
      (b64urlOfBytes ((hmac secret
        (String.mk (signingInputChars userId email now))).map (fun b => b % 256)))
      secret now2 =
      some (payloadObj userId email now (now + JWT_EXPIRATION_SECONDS)) := by
  have hple : ∀ c ∈ payloadJsonChars userId email now (now + JWT_EXPIRATION_SECONDS),
      c.toNat ≤ 255 :=
    payloadJsonChars_le255 userId email now (now + JWT_EXPIRATION_SECONDS) he
  have hfold : b64urlOfBytes (headerJsonChars.map Char.toNat) ++ '.' ::
      b64urlOfBytes ((payloadJsonChars userId email now
        (now + JWT_EXPIRATION_SECONDS)).map Char.toNat) =
      signingInputChars userId email now := rfl
  unfold verifyTokenCore
  rw [hfold,
    b64urlOfBytes_decode _ (by
      intro b hb2
      rcases List.mem_map.mp hb2 with ⟨x, _, rfl⟩
      omega),
    map_mod_of_lt _ hb]
  dsimp only
  rw [if_neg (by simp),
    b64urlOfBytes_decode _ (by
      intro b hb3
      rcases List.mem_map.mp hb3 with ⟨c, hc, rfl⟩
      have := hple c hc
      omega)]
  dsimp only
  rw [map_charOfByte_toNat _ hple, jsonParse_payload]
  dsimp only
  rw [show jsGetField (payloadObj userId email now (now + JWT_EXPIRATION_SECONDS))
      (['e', 'x', 'p'] : List Char) =
      .ok (some (.num (now + JWT_EXPIRATION_SECONDS))) from rfl]
  have hlt : jsLtNum (some (.num (now + JWT_EXPIRATION_SECONDS))) now2 = false := by
    simp only [jsLtNum, decide_eq_false_iff_not]
    omega
  dsimp only
  rw [hlt]
  rfl

theorem verifyTokenCore_sig_ok (hmac : Hmac) (hdr pseg : List Char)
    (secret : String) (now : Int)
    (hbytes : ∀ b ∈ hmac secret (String.mk (hdr ++ '.' :: pseg)), b < 256) :
    verifyTokenCore hmac hdr pseg
      (b64urlOfBytes ((hmac secret (String.mk (hdr ++ '.' :: pseg))).map (fun b => b % 256)))
      secret now =
      (match base64UrlDecodeChars pseg with
       | .error _ => none
       | .ok payloadBytes =>
         match jsonParse (payloadBytes.map charOfByte) with
         | none => none
         | some decoded =>
           match jsGetField decoded "exp".data with
           | .error _ => none
           | .ok expVal => if jsLtNum expVal now then none else some decoded) := by
  unfold verifyTokenCore
  rw [b64urlOfBytes_decode _ (by
      intro b hb2
      rcases List.mem_map.mp hb2 with ⟨x, _, rfl⟩
      omega),
    map_mod_of_lt _ hbytes]
  dsimp only
  rw [if_neg (by simp)]

theorem splitOnDot_tokenChars (hmac : Hmac) (userId : Int) (email : List Char)
    (secret : String) (now : Int) :
    splitOnDot (tokenChars hmac userId email secret now) =
      [b64urlOfBytes (headerJsonChars.map Char.toNat),
       b64urlOfBytes ((payloadJsonChars userId email now
         (now + JWT_EXPIRATION_SECONDS)).map Char.toNat),
       b64urlOfBytes ((hmac secret
         (String.mk (signingInputChars userId email now))).map (fun b => b % 256))] := by
  unfold tokenChars signingInputChars
  simp only [List.append_assoc, List.cons_append]
  rw [splitOnDot_append _ _ (b64urlOfBytes_no_dot _),
    splitOnDot_append _ _ (b64urlOfBytes_no_dot _),
    splitOnDot_no_dot _ (b64urlOfBytes_no_dot _)]

theorem tokenChars_shape (hmac : Hmac) (userId : Int) (email : List Char)
    (secret : String) (now : Int) :
    tokenChars hmac userId email secret now =
      b64urlOfBytes (headerJsonChars.map Char.toNat) ++ '.' ::
        (b64urlOfBytes ((payloadJsonChars userId email now
          (now + JWT_EXPIRATION_SECONDS)).map Char.toNat) ++ '.' ::
          b64urlOfBytes ((hmac secret
            (String.mk (signingInputChars userId email now))).map (fun b => b % 256))) := by
  unfold tokenChars signingInputChars
  simp only [List.append_assoc, List.cons_append]

theorem ctLoop_count (e a : List Nat) : (ctLoop e a).2 = min e.length a.length := by
  induction e generalizing a with
  | nil => cases a <;> simp [ctLoop]
  | cons x xs ih =>
      cases a with
      | nil => simp [ctLoop]
      | cons y ys => simp [ctLoop, ih ys]; omega

-- ── Claim theorems ───────────────────────────────────────────────────

/-- A concrete byte-valued HMAC instance for concrete evaluations. -/
def constHmac1 : Hmac := fun _ _ => [1, 2, 3]

/-- A concrete HMAC instance whose tag depends on the secret. -/
def secretLenHmac : Hmac := fun s _ => [s.length % 256]

/-- C3: the claim says `verifyPassword` never raises for arbitrarily
malformed stored strings, but the source has no try/catch around `atob`:
on a stored hash whose salt part is not valid base64 it raises
`InvalidCharacterError`, for every key-derivation function. -/
theorem verifyPassword_throws_on_malformed_base64
    (deriveKey : String → List Nat → List Nat) :
    verifyPassword deriveKey "x" "!!!!.AAAA".data = .error .invalidCharacter := rfl

/-- C4 (counterexample): a stored string with more than one dot is NOT
rejected immediately; the first two segments are used, and verification can
even succeed. -/
theorem verifyPassword_extra_dots_used :
    verifyPassword (fun _ _ => [0, 0, 0]) "x" "AAAA.AAAA.AAAA".data = .ok true := rfl

/-- C4 (amended): `verifyPassword` returns `false` immediately — for every
key-derivation function, i.e. without deriving a key — exactly when the
first two dot-split parts are not both non-empty; segments beyond the
second are ignored rather than rejected. -/
theorem verifyPassword_missing_part_false
    (deriveKey : String → List Nat → List Nat) (p : String) (stored : List Char)
    (h : (splitOnDot stored).getD 0 [] = [] ∨ (splitOnDot stored).getD 1 [] = []) :
    verifyPassword deriveKey p stored = .ok false := by
  unfold verifyPassword
  rw [if_pos h]

theorem verifyPassword_missing_part_false_witness :
    ((splitOnDot "nodothere".data).getD 0 [] = [] ∨
      (splitOnDot "nodothere".data).getD 1 [] = []) ∧
    verifyPassword (fun _ _ => [0]) "any" "nodothere".data = .ok false :=
  ⟨by decide, verifyPassword_missing_part_false (fun _ _ => [0]) "any" "nodothere".data
    (by decide)⟩

/-- C5: for every password (the empty string included) and every 16-byte
salt, hashing succeeds and verifying the same password against the produced
credential returns `true` (same salt, same derivation function). -/
theorem verify_of_hash_roundtrip (deriveKey : String → List Nat → List Nat)
    (p : String) (salt : List Nat)
    (hslen : salt.length = 16) (hs256 : ∀ b ∈ salt, b < 256)
    (hdlen : (deriveKey p salt).length = 32)
    (hd256 : ∀ b ∈ deriveKey p salt, b < 256) :
    verifyPassword deriveKey p (hashPassword deriveKey p salt) = .ok true :=
  verifyPassword_hashPassword deriveKey p salt hs256
    (by intro hc; rw [hc] at hslen; simp at hslen)
    hd256
    (by intro hc; rw [hc] at hdlen; simp at hdlen)

theorem verify_of_hash_roundtrip_witness :
    (List.replicate 16 0).length = 16 ∧
    verifyPassword (fun _ _ => List.replicate 32 7) ""
      (hashPassword (fun _ _ => List.replicate 32 7) "" (List.replicate 16 0)) = .ok true :=
  ⟨by decide, verify_of_hash_roundtrip (fun _ _ => List.replicate 32 7) ""
    (List.replicate 16 0) (by decide) (by decide) (by decide) (by decide)⟩

/-- C9: the comparison loop of `verifyPassword` runs for exactly
`expected.length` iterations whenever the lengths match — independent of
the byte contents, hence of the position of the first mismatch — so two
comparisons over equal-length inputs take the same number of iterations. -/
theorem ctLoop_constant_time (e a e2 a2 : List Nat)
    (h1 : e.length = a.length) (h2 : e2.length = a2.length)
    (h3 : e.length = e2.length) :
    (ctLoop e a).2 = e.length ∧ (ctLoop e a).2 = (ctLoop e2 a2).2 := by
  rw [ctLoop_count, ctLoop_count]
  omega

theorem ctLoop_constant_time_witness :
    ([1, 2] : List Nat).length = ([3, 4] : List Nat).length ∧
    ((ctLoop [1, 2] [3, 4]).2 = ([1, 2] : List Nat).length ∧
      (ctLoop [1, 2] [3, 4]).2 = (ctLoop [9, 9] [9, 9]).2) :=
  ⟨by decide, ctLoop_constant_time [1, 2] [3, 4] [9, 9] [9, 9] rfl rfl rfl⟩

/-- C1 (counterexample): a token of three segments whose signature verifies
and whose payload decodes to the valid JSON object with no fields at all
(`base64url("\x7b\x7d") = "e30"`) is not rejected: `verifyToken` returns the
decoded object — missing `exp`/`sub`/`email` fields do not yield `invalid`,
because `undefined < now` is false in JS. -/
theorem verifyToken_missing_fields_accepted :
    verifyToken constHmac1 "hdr.e30.AQID".data "s" 12345 = some (Json.obj []) := rfl

/-- C1 (amended): for a three-segment token with a verifying signature, a
payload segment that fails base64url decoding or fails JSON parsing yields
the single invalid outcome `none`, with no exception; but a successfully
parsed payload is returned without any field-presence check. -/
theorem verifyToken_undecodable_payload_invalid (hmac : Hmac) (hdr pseg : List Char)
    (secret : String) (now : Int)
    (hh : ∀ c ∈ hdr, c ≠ '.') (hp : ∀ c ∈ pseg, c ≠ '.')
    (hbytes : ∀ b ∈ hmac secret (String.mk (hdr ++ '.' :: pseg)), b < 256)
    (hfail : (∃ e, base64UrlDecodeChars pseg = .error e) ∨
      ∃ pb, base64UrlDecodeChars pseg = .ok pb ∧ jsonParse (pb.map charOfByte) = none) :
    verifyToken hmac (hdr ++ '.' :: (pseg ++ '.' ::
      b64urlOfBytes ((hmac secret (String.mk (hdr ++ '.' :: pseg))).map (fun b => b % 256))))
      secret now = none := by
  rw [verifyToken_three_parts hmac hdr pseg _ secret now hh hp (b64urlOfBytes_no_dot _),
    verifyTokenCore_sig_ok hmac hdr pseg secret now hbytes]
  rcases hfail with ⟨e, he⟩ | ⟨pb, hpb, hparse⟩
  · rw [he]
  · rw [hpb]
    dsimp only
    rw [hparse]

theorem verifyToken_undecodable_payload_invalid_witness :
    (∀ c ∈ "h".data, c ≠ '.') ∧
    verifyToken constHmac1 ("h".data ++ '.' :: ("!!!".data ++ '.' ::
      b64urlOfBytes ((constHmac1 "s"
        (String.mk ("h".data ++ '.' :: "!!!".data))).map (fun b => b % 256))))
      "s" 0 = none :=
  ⟨by decide, verifyToken_undecodable_payload_invalid constHmac1 "h".data "!!!".data "s" 0
    (by decide) (by decide) (by decide) (Or.inl ⟨.invalidCharacter, rfl⟩)⟩

/-- C2 (counterexample): a validly signed token whose payload is
`\x7b"exp":5\x7d`, verified at `now = 5` — the boundary `now = expiresAt` —
is ACCEPTED: the source checks `decoded.exp < now`, not `now < exp`. -/
theorem verifyToken_boundary_accepted :
    verifyToken constHmac1 ("hdr".data ++ '.' ::
      (b64urlOfBytes ("\x7b\"exp\":5\x7d".data.map Char.toNat) ++ '.' :: "AQID".data))
      "s" 5 = some (Json.obj [("exp".data, Json.num 5)]) := rfl

/-- C2 (amended): for a validly signed token whose payload parses with a
numeric `exp` field, the token is rejected exactly when `exp < now` — so it
is still accepted at the boundary `now = exp` and rejected only from
`now = exp + 1` on. -/
theorem verifyToken_expiry_boundary (hmac : Hmac) (hdr pseg : List Char)
    (pb : List Nat) (secret : String) (now e : Int) (j : Json)
    (hh : ∀ c ∈ hdr, c ≠ '.') (hp : ∀ c ∈ pseg, c ≠ '.')
    (hbytes : ∀ b ∈ hmac secret (String.mk (hdr ++ '.' :: pseg)), b < 256)
    (hpb : base64UrlDecodeChars pseg = .ok pb)
    (hparse : jsonParse (pb.map charOfByte) = some j)
    (hfield : jsGetField j "exp".data = .ok (some (.num e))) :
    verifyToken hmac (hdr ++ '.' :: (pseg ++ '.' ::
      b64urlOfBytes ((hmac secret (String.mk (hdr ++ '.' :: pseg))).map (fun b => b % 256))))
      secret now = if e < now then none else some j := by
  rw [verifyToken_three_parts hmac hdr pseg _ secret now hh hp (b64urlOfBytes_no_dot _),
    verifyTokenCore_sig_ok hmac hdr pseg secret now hbytes, hpb]
  dsimp only
  rw [hparse]
  dsimp only
  rw [hfield]
  dsimp only
  by_cases hlt : e < now
  · rw [if_pos (by simp [jsLtNum, hlt]), if_pos hlt]
  · rw [if_neg (by simp [jsLtNum, hlt]), if_neg hlt]

theorem verifyToken_expiry_boundary_witness :
    base64UrlDecodeChars (b64urlOfBytes ("\x7b\"exp\":7\x7d".data.map Char.toNat)) =
      .ok ("\x7b\"exp\":7\x7d".data.map Char.toNat) ∧
    verifyToken constHmac1 ("h".data ++ '.' ::
      (b64urlOfBytes ("\x7b\"exp\":7\x7d".data.map Char.toNat) ++ '.' ::
        b64urlOfBytes ((constHmac1 "s" (String.mk ("h".data ++ '.' ::
          b64urlOfBytes ("\x7b\"exp\":7\x7d".data.map Char.toNat)))).map
            (fun b => b % 256))))
      "s" 3 = if (7 : Int) < 3 then none else some (Json.obj [("exp".data, Json.num 7)]) :=
  ⟨rfl, verifyToken_expiry_boundary constHmac1 "h".data _ _ "s" 3 7
    (Json.obj [("exp".data, Json.num 7)])
    (by decide) (by decide) (by decide) rfl rfl rfl⟩

/-- C6 (counterexample): with email `"€"` (char code 8364 above 255),
`createToken` itself throws inside `btoa`, so the VerifyToken∘Issue
composition cannot return a payload for this input. -/
theorem createToken_nonlatin1_email_throws :
    createToken constHmac1 1 ['€'] "s" 0 = .error .invalidCharacter := rfl

/-- C6 (amended): for every Latin-1 email (all char codes at most 255) and
byte-valued HMAC, issuing succeeds and verifying the issued token under the
same secret at any time before expiry returns the payload with matching
`sub`, `email`, and `iat < exp`. -/
theorem verifyToken_createToken_roundtrip (hmac : Hmac) (userId : Int)
    (email : List Char) (secret : String) (now now2 : Int)
    (he : ∀ c ∈ email, c.toNat ≤ 255)
    (hb : ∀ b ∈ hmac secret (String.mk (signingInputChars userId email now)), b < 256)
    (hlive : now2 < now + JWT_EXPIRATION_SECONDS) :
    createToken hmac userId email secret now =
      .ok (tokenChars hmac userId email secret now) ∧
    verifyToken hmac (tokenChars hmac userId email secret now) secret now2 =
      some (payloadObj userId email now (now + JWT_EXPIRATION_SECONDS)) ∧
    now < now + JWT_EXPIRATION_SECONDS := by
  refine ⟨createToken_ok hmac userId email secret now he, ?_, by
    unfold JWT_EXPIRATION_SECONDS
    omega⟩
  rw [tokenChars_shape,
    verifyToken_three_parts _ _ _ _ _ _ (b64urlOfBytes_no_dot _)
      (b64urlOfBytes_no_dot _) (b64urlOfBytes_no_dot _)]
  exact verifyTokenCore_fresh hmac userId email secret now now2 he hb (by omega)

theorem verifyToken_createToken_roundtrip_witness :
    (∀ c ∈ "a@b.com".data, c.toNat ≤ 255) ∧
    (createToken constHmac1 1 "a@b.com".data "s" 0 =
      .ok (tokenChars constHmac1 1 "a@b.com".data "s" 0) ∧
    verifyToken constHmac1 (tokenChars constHmac1 1 "a@b.com".data "s" 0) "s" 100 =
      some (payloadObj 1 "a@b.com".data 0 (0 + JWT_EXPIRATION_SECONDS)) ∧
    (0 : Int) < 0 + JWT_EXPIRATION_SECONDS) :=
  ⟨by decide, verifyToken_createToken_roundtrip constHmac1 1 "a@b.com".data "s" 0 100
    (by decide) (by decide) (by decide)⟩

/-- C7 (counterexample): with email `"☃"` (char code 9731 above 255),
`createToken` throws inside `btoa` instead of always succeeding. -/
theorem createToken_nonlatin1_email_throws2 :
    createToken constHmac1 2 ['☃'] "t" 3 = .error .invalidCharacter := rfl

/-- C7 (amended): for every Latin-1 email, `createToken` succeeds and
returns a token of exactly three dot-separated segments whose middle
segment base64url-decodes to the JSON serialization of
`\x7bsub, email, iat, exp\x7d`, which parses back to the payload object with
`exp - iat = 86400`. -/
theorem createToken_structure (hmac : Hmac) (userId : Int) (email : List Char)
    (secret : String) (now : Int) (he : ∀ c ∈ email, c.toNat ≤ 255) :
    createToken hmac userId email secret now =
      .ok (tokenChars hmac userId email secret now) ∧
    (splitOnDot (tokenChars hmac userId email secret now)).length = 3 ∧
    base64UrlDecodeChars ((splitOnDot (tokenChars hmac userId email secret now)).getD 1 []) =
      .ok ((payloadJsonChars userId email now (now + JWT_EXPIRATION_SECONDS)).map Char.toNat) ∧
    jsonParse (((payloadJsonChars userId email now
        (now + JWT_EXPIRATION_SECONDS)).map Char.toNat).map charOfByte) =
      some (payloadObj userId email now (now + JWT_EXPIRATION_SECONDS)) ∧
    (now + JWT_EXPIRATION_SECONDS) - now = 86400 := by
  refine ⟨createToken_ok hmac userId email secret now he, ?_, ?_, ?_, by
    unfold JWT_EXPIRATION_SECONDS
    ring⟩
  · rw [splitOnDot_tokenChars]
    rfl
  · rw [splitOnDot_tokenChars]
    exact b64urlOfBytes_decode _ (by
      intro b hb3
      rcases List.mem_map.mp hb3 with ⟨c, hc, rfl⟩
      have := payloadJsonChars_le255 userId email now (now + JWT_EXPIRATION_SECONDS) he c hc
      omega)
  · rw [map_charOfByte_toNat _
        (payloadJsonChars_le255 userId email now (now + JWT_EXPIRATION_SECONDS) he),
      jsonParse_payload]

theorem createToken_structure_witness :
    (∀ c ∈ "u@v.io".data, c.toNat ≤ 255) ∧
    (createToken constHmac1 9 "u@v.io".data "k" 50 =
      .ok (tokenChars constHmac1 9 "u@v.io".data "k" 50) ∧
    (splitOnDot (tokenChars constHmac1 9 "u@v.io".data "k" 50)).length = 3 ∧
    base64UrlDecodeChars ((splitOnDot (tokenChars constHmac1 9 "u@v.io".data "k" 50)).getD 1 []) =
      .ok ((payloadJsonChars 9 "u@v.io".data 50 (50 + JWT_EXPIRATION_SECONDS)).map Char.toNat) ∧
    jsonParse (((payloadJsonChars 9 "u@v.io".data 50
        (50 + JWT_EXPIRATION_SECONDS)).map Char.toNat).map charOfByte) =
      some (payloadObj 9 "u@v.io".data 50 (50 + JWT_EXPIRATION_SECONDS)) ∧
    ((50 : Int) + JWT_EXPIRATION_SECONDS) - 50 = 86400) :=
  ⟨by decide, createToken_structure constHmac1 9 "u@v.io".data "k" 50 (by decide)⟩

/-- C8: issuing under `secretA` and verifying under `secretB` yields the
invalid outcome whenever the two secrets' HMAC tags over the signing input
differ (the standard assumption for distinct secrets under HMAC-SHA256). -/
theorem verifyToken_wrong_secret_invalid (hmac : Hmac) (userId : Int)
    (email : List Char) (secretA secretB : String) (now now2 : Int)
    (he : ∀ c ∈ email, c.toNat ≤ 255)
    (hbA : ∀ b ∈ hmac secretA (String.mk (signingInputChars userId email now)), b < 256)
    (hsep : hmac secretA (String.mk (signingInputChars userId email now)) ≠
      hmac secretB (String.mk (signingInputChars userId email now))) :
    createToken hmac userId email secretA now =
      .ok (tokenChars hmac userId email secretA now) ∧
    verifyToken hmac (tokenChars hmac userId email secretA now) secretB now2 = none := by
  refine ⟨createToken_ok hmac userId email secretA now he, ?_⟩
  have hfold : b64urlOfBytes (headerJsonChars.map Char.toNat) ++ '.' ::
      b64urlOfBytes ((payloadJsonChars userId email now
        (now + JWT_EXPIRATION_SECONDS)).map Char.toNat) =
      signingInputChars userId email now := rfl
  rw [tokenChars_shape,
    verifyToken_three_parts _ _ _ _ _ _ (b64urlOfBytes_no_dot _)
      (b64urlOfBytes_no_dot _) (b64urlOfBytes_no_dot _)]
  unfold verifyTokenCore
  rw [hfold,
    b64urlOfBytes_decode _ (by
      intro b hb2
      rcases List.mem_map.mp hb2 with ⟨x, _, rfl⟩
      omega),
    map_mod_of_lt _ hbA]
  dsimp only
  rw [if_pos hsep]

theorem verifyToken_wrong_secret_invalid_witness :
    secretLenHmac "a" (String.mk (signingInputChars 1 "e@x.io".data 0)) ≠
      secretLenHmac "bb" (String.mk (signingInputChars 1 "e@x.io".data 0)) ∧
    (createToken secretLenHmac 1 "e@x.io".data "a" 0 =
      .ok (tokenChars secretLenHmac 1 "e@x.io".data "a" 0) ∧
    verifyToken secretLenHmac (tokenChars secretLenHmac 1 "e@x.io".data "a" 0) "bb" 5 =
      none) :=
  ⟨by decide, verifyToken_wrong_secret_invalid secretLenHmac 1 "e@x.io".data "a" "bb" 0 5
    (by decide) (by decide) (by decide)⟩

/-- C10: `verifyToken` never inspects the header segment: for ANY dot-free
header content (invalid base64, invalid JSON, a different `alg`, anything),
if the HMAC signature over `header.payload` verifies, the payload decodes
and parses, and the expiry comparison does not reject, then the payload is
returned. -/
theorem verifyToken_ignores_header (hmac : Hmac) (hdr pseg : List Char)
    (pb : List Nat) (secret : String) (now : Int) (j : Json) (ev : Option Json)
    (hh : ∀ c ∈ hdr, c ≠ '.') (hp : ∀ c ∈ pseg, c ≠ '.')
    (hbytes : ∀ b ∈ hmac secret (String.mk (hdr ++ '.' :: pseg)), b < 256)
    (hpb : base64UrlDecodeChars pseg = .ok pb)
    (hparse : jsonParse (pb.map charOfByte) = some j)
    (hfield : jsGetField j "exp".data = .ok ev)
    (hlive : jsLtNum ev now = false) :
    verifyToken hmac (hdr ++ '.' :: (pseg ++ '.' ::
      b64urlOfBytes ((hmac secret (String.mk (hdr ++ '.' :: pseg))).map (fun b => b % 256))))
      secret now = some j := by
  rw [verifyToken_three_parts hmac hdr pseg _ secret now hh hp (b64urlOfBytes_no_dot _),
    verifyTokenCore_sig_ok hmac hdr pseg secret now hbytes, hpb]
  dsimp only
  rw [hparse]
  dsimp only
  rw [hfield]
  dsimp only
  rw [hlive]
  rfl

theorem verifyToken_ignores_header_witness :
    (∀ c ∈ "alg none ?!".data, c ≠ '.') ∧
    verifyToken constHmac1 ("alg none ?!".data ++ '.' ::
      (b64urlOfBytes ("\x7b\"exp\":9\x7d".data.map Char.toNat) ++ '.' ::
        b64urlOfBytes ((constHmac1 "s" (String.mk ("alg none ?!".data ++ '.' ::
          b64urlOfBytes ("\x7b\"exp\":9\x7d".data.map Char.toNat)))).map
            (fun b => b % 256))))
      "s" 2 = some (Json.obj [("exp".data, Json.num 9)]) :=
  ⟨by decide, verifyToken_ignores_header constHmac1 "alg none ?!".data _
    ("\x7b\"exp\":9\x7d".data.map Char.toNat) "s" 2
    (Json.obj [("exp".data, Json.num 9)]) (some (Json.num 9))
    (by decide) (by decide) (by decide) rfl rfl rfl rfl⟩
